import Mathlib

/-!
Verification of the sorted scalar index (`ScalarIndexSort`) of this repository,
source file `internal/core/src/index/ScalarIndexSort-inl.h`.

The index stores `(value, original position)` records, sorted ascending by
value, and answers membership (`In`), negated membership (`NotIn`) and range
queries by binary search, returning bitmaps over original row positions.

Conventions of the embedding:
* machine values of the fixed-width instantiations are modelled by a linearly
  ordered type `α` (instantiated at `Int` in the concrete theorems);
* `std::vector` is a `List`; the result bitmap (`TargetBitmap`, an external
  fixed-size bit vector with set/reset by position) is a `List Bool`;
* C++ exceptions are `Except`/`Option` results; where the C++ object's state
  at the throw point matters, the state is returned alongside the error;
* `std::lower_bound`/`std::upper_bound` are embedded as the standard halving
  binary search (`partitionPoint`), which on partitioned input computes the
  partition point, and on other input deterministically follows the halving
  steps of the usual library implementation.
-/

namespace MilvusScalar

/-- Errors of the index, mirroring the exceptions thrown by the source
(`std::invalid_argument` from `build()` on empty data and from `Range` on an
unknown operator). -/
inductive IndexError where
  | invalidInput
  | invalidArgument
deriving DecidableEq, Repr

/-- Modelled from the spec: the Ordered Record `IndexStructure<T>` is declared
in `ScalarIndexSort.h`, which is not among the provided sources; per spec §3 it
is the pair `(value, original position)`, with total order by `value` only
(`position` is not part of the comparison key). Field names follow the
source's uses `a_` (value) and `idx_` (position). -/
structure IndexStructure (α : Type) where
  a_ : α
  idx_ : Nat
deriving DecidableEq, Repr

variable {α : Type} [LinearOrder α]

/-- Modelled from the spec: comparison of records is by value only (spec §3). -/
def recordLE (x y : IndexStructure α) : Prop := x.a_ ≤ y.a_

instance : DecidableRel (recordLE (α := α)) := fun x y => by
  unfold recordLE; infer_instance

instance : IsTotal (IndexStructure α) recordLE :=
  ⟨fun x y => le_total x.a_ y.a_⟩

instance : IsTrans (IndexStructure α) recordLE :=
  ⟨fun _ _ _ h1 h2 => le_trans h1 h2⟩

instance : IsRefl (IndexStructure α) recordLE :=
  ⟨fun x => le_refl x.a_⟩

/-- The bitmap of row positions (`TargetBitmap`): a fixed-size bit vector,
spec §1/§6, modelled as a list of booleans; `set`/`reset` at position `i` is
`List.set i true/false` (out-of-range writes are ignored, positions of a
built index are always in range). -/
abbrev TargetBitmap := List Bool

/-- The standard halving binary search underlying `std::lower_bound` and
`std::upper_bound`: repeatedly probe the middle of `[first, first+len)` and
keep the half that brackets the partition point of predicate `p`.
Out-of-range reads use the default record `d` (they never occur when
`first + len ≤ rs.length`). The structural `fuel` argument only bounds the
number of halving steps; every step shrinks the interval, so callers pass
the interval length as fuel and the `fuel = 0` fallback is never reached
with a nonempty interval. -/
def partitionPoint (p : IndexStructure α → Bool) (d : IndexStructure α)
    (rs : List (IndexStructure α)) : Nat → Nat → Nat → Nat
  | 0, first, _ => first
  | fuel + 1, first, len =>
    if len = 0 then first
    else
      let step := len / 2
      let mid := first + step
      if p (rs.getD mid d) then
        partitionPoint p d rs fuel (mid + 1) (len - step - 1)
      else
        partitionPoint p d rs fuel first step

/-- `std::lower_bound(data_.begin(), data_.end(), IndexStructure<T>(v))`: the
index of the first record not less than `v` (records compare by value). -/
def lowerBound (rs : List (IndexStructure α)) (v : α) : Nat :=
  partitionPoint (fun r => decide (r.a_ < v)) ⟨v, 0⟩ rs rs.length 0 rs.length

/-- `std::upper_bound(data_.begin(), data_.end(), IndexStructure<T>(v))`: the
index of the first record greater than `v`. -/
def upperBound (rs : List (IndexStructure α)) (v : α) : Nat :=
  partitionPoint (fun r => decide (r.a_ ≤ v)) ⟨v, 0⟩ rs rs.length 0 rs.length

/-- The record-construction loop of `Build(n, values)`:
`for i in 0..n: data_.emplace_back(IndexStructure(values[i], i))`,
with `i` starting at `start`. -/
def mkRecordsFrom (start : Nat) : List α → List (IndexStructure α)
  | [] => []
  | v :: vs => ⟨v, start⟩ :: mkRecordsFrom (start + 1) vs

def mkRecords (values : List α) : List (IndexStructure α) :=
  mkRecordsFrom 0 values

/-- `std::sort(data_.begin(), data_.end())`: some permutation of `data_`
sorted by record value; embedded as insertion sort (the source's sort is
unstable, so any sorted permutation is a faithful model; no claim depends on
the order of value-ties). -/
def sortRecords (rs : List (IndexStructure α)) : List (IndexStructure α) :=
  List.insertionSort recordLE rs

/-- The index: `is_built_` flag and the record sequence `data_`. -/
structure ScalarIndexSort (α : Type) where
  is_built_ : Bool
  data_ : List (IndexStructure α)
deriving DecidableEq, Repr

namespace ScalarIndexSort

/-- The default-constructed index: `is_built_(false), data_()`. -/
def empty : ScalarIndexSort α := ⟨false, []⟩

/-- `build()`: no-op when already built; throws `std::invalid_argument` when
`data_` is empty; otherwise sorts `data_` and sets `is_built_`. -/
def build (idx : ScalarIndexSort α) : Except IndexError (ScalarIndexSort α) :=
  if idx.is_built_ then .ok idx
  else if idx.data_.length = 0 then .error .invalidInput
  else .ok ⟨true, sortRecords idx.data_⟩

/-- `Build(n, values)`: appends one record per input value (positions
`0, 1, ...` continuing after any existing records) and calls `build()`. On
the exception path the returned state is the object at the throw point:
records appended, `is_built_` untouched. -/
def Build (idx : ScalarIndexSort α) (values : List α) :
    ScalarIndexSort α × Option IndexError :=
  let appended : ScalarIndexSort α :=
    ⟨idx.is_built_, idx.data_ ++ mkRecordsFrom idx.data_.length values⟩
  match appended.build with
  | .ok j => (j, none)
  | .error e => (appended, some e)

/-- The marking loop shared by the queries: for each record in positions
`[lb, ub)` of `rs`, write bit `b` at the record's original position. The
source's `In`/`NotIn` also compare each such record's value against the probe
and, on mismatch, only print a log line to `std::cout`; printing does not
affect the returned bitmap, so the model omits it (see the C8 analysis). -/
def markRange (rs : List (IndexStructure α)) (lb ub : Nat) (b : Bool)
    (bs : TargetBitmap) : TargetBitmap :=
  ((rs.drop lb).take (ub - lb)).foldl (fun a r => a.set r.idx_ b) bs

/-- `In(n, values)`: build if needed, start from an all-clear bitmap of size
`data_.size()`, and for each probe value set every position in its
equal-range `[lower_bound, upper_bound)`. -/
def In (idx : ScalarIndexSort α) (values : List α) :
    Except IndexError TargetBitmap := do
  let j ← idx.build
  .ok (values.foldl
    (fun bs v => markRange j.data_ (lowerBound j.data_ v) (upperBound j.data_ v) true bs)
    (List.replicate j.data_.length false))

/-- `NotIn(n, values)`: same as `In` but the bitmap starts all-set
(`bitset->set()`) and equal-range positions are cleared (`bitset->reset`). -/
def NotIn (idx : ScalarIndexSort α) (values : List α) :
    Except IndexError TargetBitmap := do
  let j ← idx.build
  .ok (values.foldl
    (fun bs v => markRange j.data_ (lowerBound j.data_ v) (upperBound j.data_ v) false bs)
    (List.replicate j.data_.length true))

/-- The four recognized comparison operators of single-bound `Range`. The
source's `switch` throws `std::invalid_argument` on any other enum value;
the model's closed datatype has no such value. -/
inductive OperatorType where
  | LT
  | LE
  | GT
  | GE
deriving DecidableEq, Repr

/-- The `[lb, ub)` sub-range selected by single-bound `Range`'s `switch`:
`lb` starts at `begin()`, `ub` at `end()`; LT lowers `ub` to `lower_bound`,
LE to `upper_bound`, GT raises `lb` to `upper_bound`, GE to `lower_bound`. -/
def rangeBounds (rs : List (IndexStructure α)) (v : α) :
    OperatorType → Nat × Nat
  | .LT => (0, lowerBound rs v)
  | .LE => (0, upperBound rs v)
  | .GT => (upperBound rs v, rs.length)
  | .GE => (lowerBound rs v, rs.length)

/-- `Range(value, op)`: build if needed, then set every position of the
sub-range chosen by the operator. -/
def Range (idx : ScalarIndexSort α) (v : α) (op : OperatorType) :
    Except IndexError TargetBitmap := do
  let j ← idx.build
  let (lb, ub) := rangeBounds j.data_ v op
  .ok (markRange j.data_ lb ub true (List.replicate j.data_.length false))

/-- `Range(lower_bound_value, lb_inclusive, upper_bound_value, ub_inclusive)`:
build if needed; if `lower > upper` swap both values and both inclusivity
flags; then `lb = lower_bound(lower)` if inclusive else `upper_bound(lower)`,
`ub = upper_bound(upper)` if inclusive else `lower_bound(upper)`, and set
every position in `[lb, ub)`. -/
def Range2 (idx : ScalarIndexSort α) (lower : α) (lbInc : Bool)
    (upper : α) (ubInc : Bool) : Except IndexError TargetBitmap := do
  let j ← idx.build
  let (lo, loInc, hi, hiInc) :=
    if upper < lower then (upper, ubInc, lower, lbInc)
    else (lower, lbInc, upper, ubInc)
  let lb := if loInc then lowerBound j.data_ lo else upperBound j.data_ lo
  let ub := if hiInc then upperBound j.data_ hi else lowerBound j.data_ hi
  .ok (markRange j.data_ lb ub true (List.replicate j.data_.length false))

end ScalarIndexSort

/-- The contents of one persisted blob. The source stores raw bytes via
`memcpy`; the embedding keeps each blob at the granularity the source writes
and reads it: a packed record sequence (`index_data`), a `size_t` count
(`index_length`), or the bytes of one string (string specialization). The
byte length of a blob is `byteSize` below. -/
inductive BlobData (α : Type) where
  | recs (rs : List (IndexStructure α))
  | len (n : Nat)
  | str (s : String)
deriving DecidableEq, Repr

/-- The byte length of a blob, with `stride` the size of one packed record
(`sizeof(IndexStructure<T>)`) and 8 = `sizeof(size_t)`. -/
def BlobData.byteSize (stride : Nat) : BlobData α → Nat
  | .recs rs => rs.length * stride
  | .len _ => 8
  | .str s => s.length

/-- The reinterpretation of one blob's raw bytes as a string, as the string
specialization's `Load` performs; only `.str` blobs arise on that path. -/
def blobAsString : BlobData String → String
  | .str s => s
  | .len _ => ""
  | .recs _ => ""

/-- Modelled from the spec: the external named-blob persistence container
(`BinarySet`, spec §6): `append(name, bytes)` and `lookup(name) -> bytes`,
with enumeration over all entries; the underlying map is keyed by name, so
enumeration is in ascending name order. -/
structure BinarySet (α : Type) where
  entries : List (String × BlobData α)
deriving DecidableEq, Repr

namespace BinarySet

def emptySet : BinarySet α := ⟨[]⟩

/-- `Append(name, data, size)`. -/
def Append (bs : BinarySet α) (name : String) (d : BlobData α) : BinarySet α :=
  ⟨bs.entries ++ [(name, d)]⟩

/-- `GetByName(name)`: lookup of a blob by its name. -/
def GetByName (bs : BinarySet α) (name : String) : Option (BlobData α) :=
  (bs.entries.find? (fun e => e.1 = name)).map (fun e => e.2)

/-- Modelled from the spec: enumeration over `binary_map_` (a map keyed by
blob name) visits entries in ascending lexicographic order of their names.
Names appended by this index's serializers are pairwise distinct, so
sorting the appended entries by name is faithful. -/
def binaryMap (bs : BinarySet α) : List (String × BlobData α) :=
  List.insertionSort (fun x y => x.1 ≤ y.1) bs.entries

end BinarySet

namespace ScalarIndexSort

/-- `Serialize(config)` for fixed-width `T`: build if needed, then append the
packed record bytes as `"index_data"` and the element count as
`"index_length"`. -/
def Serialize (idx : ScalarIndexSort α) : Except IndexError (BinarySet α) := do
  let j ← idx.build
  .ok ((BinarySet.emptySet.Append "index_data" (.recs j.data_)).Append
        "index_length" (.len j.data_.length))

/-- `Load(index_binary)` for fixed-width `T`: read the count from
`"index_length"`, `resize` `data_` to that count (new records
default-initialized, modelled as value `default` at position 0), `memcpy` the
bytes of `"index_data"` over the front of `data_`, and mark the index built —
with no validation that the blob's byte length matches the count or the
record stride. A blob longer than `count` records would overrun the buffer
(undefined behavior); the model copies at most `count` records. `none` models
the crash on a missing blob name (`GetByName` returning null). -/
def Load [Inhabited α] (bs : BinarySet α) : Option (ScalarIndexSort α) := do
  let lenBlob ← bs.GetByName "index_length"
  let n ← match lenBlob with | .len n => some n | _ => none
  let dataBlob ← bs.GetByName "index_data"
  let rs ← match dataBlob with | .recs rs => some rs | _ => none
  some ⟨true, rs.take n ++ List.replicate (n - rs.length) ⟨default, 0⟩⟩

/-- `Serialize(config)` for `T = std::string`: one blob per record of
`GetData()` (no build-if-needed), name = decimal string of the record's
position, content = the string's bytes. -/
def stringSerialize (idx : ScalarIndexSort String) : BinarySet String :=
  idx.data_.foldl
    (fun bs r => bs.Append (toString r.idx_) (.str r.a_)) BinarySet.emptySet

/-- `Load(index_binary)` for `T = std::string`: collect the byte content of
every blob of `binary_map_` as a string, in the map's enumeration order
(ascending name order), discarding the names, then delegate to the generic
`Build`. A blob holding non-string bytes is reinterpreted as a string; only
the `.str` case arises from `stringSerialize`. -/
def stringLoad (idx : ScalarIndexSort String) (bs : BinarySet String) :
    ScalarIndexSort String × Option IndexError :=
  let vecs := bs.binaryMap.map (fun e => blobAsString e.2)
  idx.Build vecs

/-- The index obtained by `Build(count, values)` on a fresh
(default-constructed) index, as in the claims' lifecycle. -/
def builtFrom (values : List α) : ScalarIndexSort α :=
  (ScalarIndexSort.empty.Build values).1

end ScalarIndexSort

section Lemmas

open ScalarIndexSort

omit [LinearOrder α] in
/-- `partitionPoint` stays within the searched interval `[first, first+len]`
whenever the fuel covers the interval length. -/
theorem partitionPoint_bounds (p : IndexStructure α → Bool) (d : IndexStructure α)
    (rs : List (IndexStructure α)) :
    ∀ fuel len first, len ≤ fuel →
      first ≤ partitionPoint p d rs fuel first len ∧
      partitionPoint p d rs fuel first len ≤ first + len := by
  intro fuel
  induction fuel with
  | zero =>
    intro len first hle
    simp only [partitionPoint]
    omega
  | succ fuel ih =>
    intro len first hle
    simp only [partitionPoint]
    by_cases h : len = 0
    · simp [h]
    · simp only [h, if_false]
      split
      · have := ih (len - len / 2 - 1) (first + len / 2 + 1) (by omega)
        omega
      · have := ih (len / 2) first (by omega)
        omega

omit [LinearOrder α] in
/-- On input partitioned at `k` (predicate true strictly before `k`, false
from `k` on), the halving search returns `k` whenever `k` lies in the
searched interval and the fuel covers the interval length. -/
theorem partitionPoint_eq (p : IndexStructure α → Bool) (d : IndexStructure α)
    (rs : List (IndexStructure α)) (k : Nat)
    (hbefore : ∀ i, i < k → i < rs.length → p (rs.getD i d) = true)
    (hafter : ∀ i, k ≤ i → i < rs.length → p (rs.getD i d) = false) :
    ∀ fuel len first, len ≤ fuel → first + len ≤ rs.length → first ≤ k →
      k ≤ first + len → partitionPoint p d rs fuel first len = k := by
  intro fuel
  induction fuel with
  | zero =>
    intro len first hle hlen hk1 hk2
    simp only [partitionPoint]
    omega
  | succ fuel ih =>
    intro len first hle hlen hk1 hk2
    simp only [partitionPoint]
    by_cases h : len = 0
    · simp only [h, if_true]
      omega
    · simp only [h, if_false]
      have hmid : first + len / 2 < rs.length := by omega
      split
      · rename_i hp
        have hklt : first + len / 2 < k := by
          by_contra hc
          have := hafter (first + len / 2) (by omega) hmid
          rw [List.getD_eq_getElem?_getD] at this
          simp [this] at hp
        exact ih (len - len / 2 - 1) (first + len / 2 + 1)
          (by omega) (by omega) (by omega) (by omega)
      · rename_i hp
        have hkle : k ≤ first + len / 2 := by
          by_contra hc
          have := hbefore (first + len / 2) (by omega) hmid
          rw [List.getD_eq_getElem?_getD] at this
          simp [this] at hp
        exact ih (len / 2) first (by omega) (by omega) hk1 hkle

omit [LinearOrder α] in
/-- Every position strictly before the length of `takeWhile p` satisfies `p`. -/
theorem takeWhile_getD_true (p : IndexStructure α → Bool)
    (l : List (IndexStructure α)) (d : IndexStructure α) :
    ∀ i, i < (l.takeWhile p).length → p (l.getD i d) = true := by
  induction l with
  | nil => simp
  | cons a l ih =>
    intro i hi
    by_cases hp : p a
    · rw [List.takeWhile_cons_of_pos hp] at hi
      cases i with
      | zero => simpa using hp
      | succ i =>
        simp only [List.getD_cons_succ]
        exact ih i (by simpa using hi)
    · rw [List.takeWhile_cons_of_neg hp] at hi
      simp at hi

omit [LinearOrder α] in
/-- The element at the length of `takeWhile p` (when in range) fails `p`. -/
theorem takeWhile_getD_false (p : IndexStructure α → Bool)
    (l : List (IndexStructure α)) (d : IndexStructure α)
    (h : (l.takeWhile p).length < l.length) :
    p (l.getD (l.takeWhile p).length d) = false := by
  induction l with
  | nil => simp at h
  | cons a l ih =>
    by_cases hp : p a
    · rw [List.takeWhile_cons_of_pos hp] at h ⊢
      simpa using ih (by simpa using h)
    · rw [List.takeWhile_cons_of_neg hp]
      simpa using hp

omit [LinearOrder α] in
theorem takeWhile_length_le (p : IndexStructure α → Bool)
    (l : List (IndexStructure α)) : (l.takeWhile p).length ≤ l.length :=
  (l.takeWhile_sublist p).length_le

/-- Along a value-sorted record list, values are monotone in position. -/
theorem sorted_getD_mono {rs : List (IndexStructure α)}
    (hs : List.Sorted recordLE rs) (d : IndexStructure α) {i j : Nat}
    (hij : i ≤ j) (hj : j < rs.length) :
    (rs.getD i d).a_ ≤ (rs.getD j d).a_ := by
  have hi : i < rs.length := lt_of_le_of_lt hij hj
  rw [List.getD_eq_getElem _ _ hi, List.getD_eq_getElem _ _ hj]
  exact hs.rel_get_of_le (a := ⟨i, hi⟩) (b := ⟨j, hj⟩) hij

/-- On a sorted record list, `lowerBound` is the length of the prefix of
values strictly below the probe. -/
theorem lowerBound_eq_takeWhile {rs : List (IndexStructure α)}
    (hs : List.Sorted recordLE rs) (v : α) :
    lowerBound rs v = (rs.takeWhile (fun r => decide (r.a_ < v))).length := by
  set p : IndexStructure α → Bool := fun r => decide (r.a_ < v) with hp
  set k := (rs.takeWhile p).length with hk
  have hkle : k ≤ rs.length := takeWhile_length_le p rs
  refine partitionPoint_eq p ⟨v, 0⟩ rs k ?_ ?_ rs.length rs.length 0 (by omega)
    (by omega) (by omega) (by omega)
  · intro i hik _
    exact takeWhile_getD_true p rs _ i hik
  · intro i hki hi
    have hkl : k < rs.length := lt_of_le_of_lt hki hi
    have h0 : p (rs.getD k ⟨v, 0⟩) = false := takeWhile_getD_false p rs _ hkl
    have hmono := sorted_getD_mono hs (⟨v, 0⟩ : IndexStructure α) hki hi
    simp only [hp, decide_eq_false_iff_not, not_lt] at h0 ⊢
    exact le_trans h0 hmono

/-- On a sorted record list, `upperBound` is the length of the prefix of
values not above the probe. -/
theorem upperBound_eq_takeWhile {rs : List (IndexStructure α)}
    (hs : List.Sorted recordLE rs) (v : α) :
    upperBound rs v = (rs.takeWhile (fun r => decide (r.a_ ≤ v))).length := by
  set p : IndexStructure α → Bool := fun r => decide (r.a_ ≤ v) with hp
  set k := (rs.takeWhile p).length with hk
  have hkle : k ≤ rs.length := takeWhile_length_le p rs
  refine partitionPoint_eq p ⟨v, 0⟩ rs k ?_ ?_ rs.length rs.length 0 (by omega)
    (by omega) (by omega) (by omega)
  · intro i hik _
    exact takeWhile_getD_true p rs _ i hik
  · intro i hki hi
    have hkl : k < rs.length := lt_of_le_of_lt hki hi
    have h0 : p (rs.getD k ⟨v, 0⟩) = false := takeWhile_getD_false p rs _ hkl
    have hmono := sorted_getD_mono hs (⟨v, 0⟩ : IndexStructure α) hki hi
    simp only [hp, decide_eq_false_iff_not, not_le] at h0 ⊢
    exact lt_of_lt_of_le h0 hmono

/-- `lowerBound` never exceeds the list length (no sortedness needed). -/
theorem lowerBound_le_length (rs : List (IndexStructure α)) (v : α) :
    lowerBound rs v ≤ rs.length := by
  have := partitionPoint_bounds (fun r => decide (r.a_ < v)) ⟨v, 0⟩ rs rs.length
    rs.length 0 (le_refl _)
  unfold lowerBound
  omega

/-- `upperBound` never exceeds the list length (no sortedness needed). -/
theorem upperBound_le_length (rs : List (IndexStructure α)) (v : α) :
    upperBound rs v ≤ rs.length := by
  have := partitionPoint_bounds (fun r => decide (r.a_ ≤ v)) ⟨v, 0⟩ rs rs.length
    rs.length 0 (le_refl _)
  unfold upperBound
  omega

/-- Position `i` lies strictly below `lowerBound` iff the record there is
strictly below the probe (sorted list). -/
theorem lt_lowerBound_iff {rs : List (IndexStructure α)}
    (hs : List.Sorted recordLE rs) (v : α) (d : IndexStructure α) {i : Nat}
    (hi : i < rs.length) :
    i < lowerBound rs v ↔ (rs.getD i d).a_ < v := by
  rw [lowerBound_eq_takeWhile hs]
  constructor
  · intro h
    have := takeWhile_getD_true (fun r => decide (r.a_ < v)) rs d i h
    simpa using this
  · intro h
    by_contra hc
    push_neg at hc
    set k := (rs.takeWhile (fun r => decide (r.a_ < v))).length
    have hkl : k < rs.length := lt_of_le_of_lt hc hi
    have h0 := takeWhile_getD_false (fun r => decide (r.a_ < v)) rs d hkl
    simp only [decide_eq_false_iff_not, not_lt] at h0
    have hmono := sorted_getD_mono hs d hc hi
    exact absurd (lt_of_le_of_lt (le_trans h0 hmono) h) (lt_irrefl v)

/-- Position `i` lies strictly below `upperBound` iff the record there is
not above the probe (sorted list). -/
theorem lt_upperBound_iff {rs : List (IndexStructure α)}
    (hs : List.Sorted recordLE rs) (v : α) (d : IndexStructure α) {i : Nat}
    (hi : i < rs.length) :
    i < upperBound rs v ↔ (rs.getD i d).a_ ≤ v := by
  rw [upperBound_eq_takeWhile hs]
  constructor
  · intro h
    have := takeWhile_getD_true (fun r => decide (r.a_ ≤ v)) rs d i h
    simpa using this
  · intro h
    by_contra hc
    push_neg at hc
    set k := (rs.takeWhile (fun r => decide (r.a_ ≤ v))).length
    have hkl : k < rs.length := lt_of_le_of_lt hc hi
    have h0 := takeWhile_getD_false (fun r => decide (r.a_ ≤ v)) rs d hkl
    simp only [decide_eq_false_iff_not, not_le] at h0
    have hmono := sorted_getD_mono hs d hc hi
    exact absurd (le_trans h (le_trans h0.le hmono)) (not_le.mpr (lt_of_le_of_lt h (lt_of_lt_of_le h0 hmono)))

omit [LinearOrder α] in
/-- The marking fold preserves the bitmap length. -/
theorem foldl_set_length (ms : List (IndexStructure α)) (b : Bool) :
    ∀ bs : TargetBitmap,
      (ms.foldl (fun a r => a.set r.idx_ b) bs).length = bs.length := by
  induction ms with
  | nil => intro bs; rfl
  | cons r ms ih =>
    intro bs
    simp only [List.foldl_cons]
    rw [ih, List.length_set]

omit [LinearOrder α] in
/-- Effect of the marking fold on one bit: position `j` holds `b` if some
record of the marked list has original position `j`, and is untouched
otherwise. -/
theorem foldl_set_getD (ms : List (IndexStructure α)) (b : Bool) :
    ∀ (bs : TargetBitmap) (j : Nat), j < bs.length →
      (ms.foldl (fun a r => a.set r.idx_ b) bs).getD j false =
        if ms.any (fun r => r.idx_ == j) then b else bs.getD j false := by
  induction ms with
  | nil => intro bs j _; simp
  | cons r ms ih =>
    intro bs j hj
    simp only [List.foldl_cons, List.any_cons]
    by_cases hr : r.idx_ = j
    · have hset : (bs.set r.idx_ b).getD j false = b := by
        rw [hr, List.getD_eq_getElem _ _ (by simpa using hj)]
        exact List.getElem_set_self _
      rw [ih (bs.set r.idx_ b) j (by simpa using hj), hset]
      simp [hr]
    · have hset : (bs.set r.idx_ b).getD j false = bs.getD j false := by
        by_cases hjlt : j < bs.length
        · rw [List.getD_eq_getElem _ _ (by simpa using hjlt),
            List.getD_eq_getElem _ _ hjlt]
          exact List.getElem_set_ne hr (by simpa using hjlt)
        · omega
      rw [ih (bs.set r.idx_ b) j (by simpa using hj), hset]
      have : (r.idx_ == j) = false := by simpa using hr
      simp [this]

omit [LinearOrder α] in
theorem mkRecordsFrom_length (vs : List α) :
    ∀ s, (mkRecordsFrom s vs).length = vs.length := by
  induction vs with
  | nil => intro s; rfl
  | cons v vs ih => intro s; simp [mkRecordsFrom, ih]

omit [LinearOrder α] in
/-- Membership in the record-construction loop's output: exactly the pairs
`(vs[j], s + j)`. -/
theorem mem_mkRecordsFrom (vs : List α) (r : IndexStructure α) :
    ∀ s, r ∈ mkRecordsFrom s vs ↔
      ∃ (j : Nat) (h : j < vs.length), r = ⟨vs.get ⟨j, h⟩, s + j⟩ := by
  induction vs with
  | nil => intro s; simp [mkRecordsFrom]
  | cons v vs ih =>
    intro s
    simp only [mkRecordsFrom, List.mem_cons, ih (s + 1)]
    constructor
    · rintro (rfl | ⟨j, h, rfl⟩)
      · exact ⟨0, by simp, by simp⟩
      · exact ⟨j + 1, by simpa using h, by simp [Nat.add_assoc, Nat.add_comm 1 j]⟩
    · rintro ⟨j, h, rfl⟩
      cases j with
      | zero => left; simp
      | succ j =>
        right
        refine ⟨j, by simpa using h, ?_⟩
        simp [Nat.add_assoc, Nat.add_comm 1 j]

omit [LinearOrder α] in
/-- The positions assigned by the construction loop are `s, s+1, ...`. -/
theorem mkRecordsFrom_map_idx (vs : List α) :
    ∀ s, (mkRecordsFrom s vs).map (fun r => r.idx_) = List.range' s vs.length := by
  induction vs with
  | nil => intro s; rfl
  | cons v vs ih => intro s; simp [mkRecordsFrom, List.range'_succ, ih]

omit [LinearOrder α] in
/-- The values carried by the construction loop's records are the inputs. -/
theorem mkRecordsFrom_map_val (vs : List α) :
    ∀ s, (mkRecordsFrom s vs).map (fun r => r.a_) = vs := by
  induction vs with
  | nil => intro s; rfl
  | cons v vs ih => intro s; simp [mkRecordsFrom, ih]

/-- `Build` on a fresh index with nonempty input: records are the sorted
enumerated inputs and no error is reported. -/
theorem builtFrom_eq (values : List α) (h : values ≠ []) :
    ScalarIndexSort.empty.Build values =
      (⟨true, sortRecords (mkRecords values)⟩, none) := by
  have hlen : (mkRecordsFrom 0 values).length = values.length :=
    mkRecordsFrom_length values 0
  have hne : values.length ≠ 0 := fun h0 => h (List.length_eq_zero.mp h0)
  simp only [Build, build, empty, List.nil_append, List.length_nil]
  simp only [Bool.false_eq_true, if_false, hlen, hne, if_false, mkRecords]

/-- The record list of a freshly built index is sorted by value. -/
theorem builtFrom_sorted (values : List α) (h : values ≠ []) :
    List.Sorted recordLE (builtFrom values).data_ := by
  unfold builtFrom
  rw [builtFrom_eq values h]
  exact List.sorted_insertionSort recordLE (mkRecords values)

/-- The record list of a freshly built index is a permutation of the
enumerated inputs. -/
theorem builtFrom_perm (values : List α) (h : values ≠ []) :
    (builtFrom values).data_.Perm (mkRecords values) := by
  unfold builtFrom
  rw [builtFrom_eq values h]
  exact List.perm_insertionSort recordLE (mkRecords values)

theorem builtFrom_is_built (values : List α) (h : values ≠ []) :
    (builtFrom values).is_built_ = true := by
  unfold builtFrom
  rw [builtFrom_eq values h]

theorem builtFrom_length (values : List α) (h : values ≠ []) :
    (builtFrom values).data_.length = values.length := by
  rw [(builtFrom_perm values h).length_eq, mkRecords, mkRecordsFrom_length]

/-- Membership in a freshly built index's records. -/
theorem mem_builtFrom (values : List α) (h : values ≠ []) (r : IndexStructure α) :
    r ∈ (builtFrom values).data_ ↔
      ∃ (j : Nat) (hj : j < values.length), r = ⟨values.get ⟨j, hj⟩, j⟩ := by
  rw [(builtFrom_perm values h).mem_iff, mkRecords]
  simpa using mem_mkRecordsFrom values r 0

/-- On a sorted record list, the equal-range slice
`[lower_bound, upper_bound)` holds exactly the records whose value equals the
probe. -/
theorem mem_slice_iff {rs : List (IndexStructure α)}
    (hs : List.Sorted recordLE rs) (v : α) (r : IndexStructure α) :
    r ∈ (rs.drop (lowerBound rs v)).take (upperBound rs v - lowerBound rs v) ↔
      r ∈ rs ∧ r.a_ = v := by
  set lb := lowerBound rs v with hlb
  set ub := upperBound rs v with hub
  constructor
  · intro h
    obtain ⟨t, ht, hget⟩ := List.mem_iff_getElem.mp h
    have ht2 : t < ub - lb ∧ lb + t < rs.length := by
      have h1 := ht
      rw [List.length_take, List.length_drop] at h1
      omega
    have hget2 : rs.getD (lb + t) ⟨v, 0⟩ = r := by
      rw [List.getD_eq_getElem _ _ ht2.2, ← hget, List.getElem_take,
        List.getElem_drop]
    have hle : r.a_ ≤ v := by
      have := (lt_upperBound_iff hs v ⟨v, 0⟩ ht2.2).mp (by omega)
      rwa [hget2] at this
    have hge : ¬ r.a_ < v := by
      intro hcon
      have := (lt_lowerBound_iff hs v ⟨v, 0⟩ ht2.2).mpr
        (by rw [hget2]; exact hcon)
      omega
    have hmemr : r ∈ rs := by
      rw [← hget2, List.getD_eq_getElem _ _ ht2.2]
      exact List.getElem_mem ht2.2
    exact ⟨hmemr, le_antisymm hle (not_lt.mp hge)⟩
  · rintro ⟨hmem, hv⟩
    obtain ⟨i, hi, hri⟩ := List.mem_iff_getElem.mp hmem
    have hlbi : lb ≤ i := by
      by_contra hc
      have := (lt_lowerBound_iff hs v ⟨v, 0⟩ hi).mp (by omega)
      rw [List.getD_eq_getElem _ _ hi, hri, hv] at this
      exact lt_irrefl v this
    have hiub : i < ub := by
      by_contra hc
      have hnot : ¬ i < ub := hc
      have := (lt_upperBound_iff hs v ⟨v, 0⟩ hi).mpr
        (by rw [List.getD_eq_getElem _ _ hi, hri, hv])
      exact hnot this
    have hlen : i - lb < ((rs.drop lb).take (ub - lb)).length := by
      rw [List.length_take, List.length_drop]
      omega
    refine List.mem_iff_getElem.mpr ⟨i - lb, hlen, ?_⟩
    rw [List.getElem_take, List.getElem_drop]
    have : lb + (i - lb) = i := by omega
    simp only [this]
    exact hri

/-- One probe's marking pass, on a sorted list: position `j` receives `b`
exactly when some record has value `v` and position `j`. -/
theorem markRange_getD {rs : List (IndexStructure α)}
    (hs : List.Sorted recordLE rs) (v : α) (b : Bool) (bs : TargetBitmap)
    (j : Nat) (hj : j < bs.length) :
    (markRange rs (lowerBound rs v) (upperBound rs v) b bs).getD j false =
      if rs.any (fun r => r.idx_ == j && r.a_ == v) then b
      else bs.getD j false := by
  have hany : ((rs.drop (lowerBound rs v)).take
      (upperBound rs v - lowerBound rs v)).any (fun r => r.idx_ == j) =
      rs.any (fun r => r.idx_ == j && r.a_ == v) := by
    rw [Bool.eq_iff_iff]
    simp only [List.any_eq_true, Bool.and_eq_true, beq_iff_eq]
    constructor
    · rintro ⟨r, hr, hrj⟩
      obtain ⟨hmem, hv⟩ := (mem_slice_iff hs v r).mp hr
      exact ⟨r, hmem, hrj, hv⟩
    · rintro ⟨r, hmem, hrj, hv⟩
      exact ⟨r, (mem_slice_iff hs v r).mpr ⟨hmem, hv⟩, hrj⟩
  unfold markRange
  rw [foldl_set_getD _ b bs j hj, hany]

omit [LinearOrder α] in
/-- `markRange` preserves the bitmap length. -/
theorem markRange_length (rs : List (IndexStructure α)) (lb ub : Nat)
    (b : Bool) (bs : TargetBitmap) :
    (markRange rs lb ub b bs).length = bs.length :=
  foldl_set_length _ b bs

/-- The whole probe loop of `In`/`NotIn`, on a sorted list: position `j`
receives `b` exactly when some probe matches some record at position `j`. -/
theorem foldl_markRange_getD {rs : List (IndexStructure α)}
    (hs : List.Sorted recordLE rs) (b : Bool) (probes : List α) :
    ∀ (bs : TargetBitmap) (j : Nat), j < bs.length →
      ((probes.foldl
          (fun a v => markRange rs (lowerBound rs v) (upperBound rs v) b a)
          bs).getD j false =
        if probes.any (fun v => rs.any (fun r => r.idx_ == j && r.a_ == v))
        then b else bs.getD j false) := by
  induction probes with
  | nil => intro bs j _; simp
  | cons v probes ih =>
    intro bs j hj
    simp only [List.foldl_cons, List.any_cons]
    rw [ih _ j (by rw [markRange_length]; exact hj),
      markRange_getD hs v b bs j hj]
    by_cases h1 : probes.any (fun v => rs.any (fun r => r.idx_ == j && r.a_ == v)) = true
    · simp [h1]
    · simp only [Bool.not_eq_true] at h1
      by_cases h2 : rs.any (fun r => r.idx_ == j && r.a_ == v) = true
      · simp [h1, h2]
      · simp only [Bool.not_eq_true] at h2
        simp [h1, h2]

/-- The probe loop preserves the bitmap length. -/
theorem foldl_markRange_length (rs : List (IndexStructure α)) (b : Bool)
    (probes : List α) (bs : TargetBitmap) :
    (probes.foldl
        (fun a v => markRange rs (lowerBound rs v) (upperBound rs v) b a)
        bs).length = bs.length := by
  induction probes generalizing bs with
  | nil => rfl
  | cons v probes ih => simp only [List.foldl_cons]; rw [ih, markRange_length]

/-- `build()` on an already-built index returns it unchanged. -/
theorem build_of_built {idx : ScalarIndexSort α} (h : idx.is_built_ = true) :
    idx.build = .ok idx := by
  simp [build, h]

/-- Full characterization of `In` on a freshly built index: the returned
bitmap has one bit per original row, and bit `j` is set exactly when row
`j`'s value is one of the probes. -/
theorem In_builtFrom (values : List α) (h : values ≠ []) (probes : List α) :
    ∃ bm, (builtFrom values).In probes = .ok bm ∧
      bm.length = values.length ∧
      ∀ (j : Nat) (hj : j < values.length),
        (bm.getD j false = true ↔ ∃ v ∈ probes, values.get ⟨j, hj⟩ = v) := by
  have hb := builtFrom_is_built values h
  have hsorted := builtFrom_sorted values h
  have hn := builtFrom_length values h
  have hIn : (builtFrom values).In probes = .ok (probes.foldl
      (fun a v => markRange (builtFrom values).data_
        (lowerBound (builtFrom values).data_ v)
        (upperBound (builtFrom values).data_ v) true a)
      (List.replicate (builtFrom values).data_.length false)) := by
    unfold In
    rw [build_of_built hb]
    rfl
  refine ⟨_, hIn, ?_, ?_⟩
  · rw [foldl_markRange_length, List.length_replicate, hn]
  · intro j hj
    have hjn : j < (List.replicate (builtFrom values).data_.length false).length := by
      rw [List.length_replicate, hn]; exact hj
    rw [foldl_markRange_getD hsorted true probes _ j hjn]
    have hrepl : (List.replicate (builtFrom values).data_.length false).getD j
        false = false := by
      rw [List.getD_eq_getElem _ _ hjn]
      exact List.getElem_replicate _ _
    rw [hrepl]
    have hiff : (probes.any fun v =>
        (builtFrom values).data_.any fun r => r.idx_ == j && r.a_ == v) = true ↔
        ∃ v ∈ probes, values.get ⟨j, hj⟩ = v := by
      simp only [List.any_eq_true, Bool.and_eq_true, beq_iff_eq]
      constructor
      · rintro ⟨v, hv, r, hr, hrj, hrv⟩
        obtain ⟨j2, hj2, rfl⟩ := (mem_builtFrom values h r).mp hr
        simp only at hrj hrv
        subst hrj
        exact ⟨v, hv, by rw [← hrv]⟩
      · rintro ⟨v, hv, hveq⟩
        refine ⟨v, hv, ⟨values.get ⟨j, hj⟩, j⟩, ?_, rfl, hveq⟩
        exact (mem_builtFrom values h _).mpr ⟨j, hj, rfl⟩
    by_cases hc : (probes.any fun v =>
        (builtFrom values).data_.any fun r => r.idx_ == j && r.a_ == v) = true
    · rw [if_pos hc]
      exact iff_of_true rfl (hiff.mp hc)
    · rw [if_neg hc]
      exact iff_of_false (by simp) (fun hex => hc (hiff.mpr hex))

omit [LinearOrder α] in
/-- Clearing bits into the complemented bitmap mirrors setting bits into the
original: the two marking folds stay pointwise complementary. -/
theorem foldl_set_map_not (ms : List (IndexStructure α)) :
    ∀ bs : TargetBitmap,
      ms.foldl (fun a r => a.set r.idx_ false) (bs.map (fun x => !x)) =
        (ms.foldl (fun a r => a.set r.idx_ true) bs).map (fun x => !x) := by
  induction ms with
  | nil => intro bs; rfl
  | cons r ms ih =>
    intro bs
    simp only [List.foldl_cons]
    rw [← ih (bs.set r.idx_ true)]
    congr 1
    rw [List.map_set]
    rfl

omit [LinearOrder α] in
theorem markRange_map_not (rs : List (IndexStructure α)) (lb ub : Nat)
    (bs : TargetBitmap) :
    markRange rs lb ub false (bs.map (fun x => !x)) =
      (markRange rs lb ub true bs).map (fun x => !x) :=
  foldl_set_map_not _ bs

/-- The `NotIn` probe loop stays the pointwise complement of the `In` probe
loop. -/
theorem foldl_markRange_map_not (rs : List (IndexStructure α))
    (probes : List α) :
    ∀ bs : TargetBitmap,
      probes.foldl
          (fun a v => markRange rs (lowerBound rs v) (upperBound rs v) false a)
          (bs.map (fun x => !x)) =
        (probes.foldl
            (fun a v => markRange rs (lowerBound rs v) (upperBound rs v) true a)
            bs).map (fun x => !x) := by
  induction probes with
  | nil => intro bs; rfl
  | cons v probes ih =>
    intro bs
    simp only [List.foldl_cons]
    rw [markRange_map_not, ih]

omit [LinearOrder α] in
/-- The `j ∈ [0, lowerBound)` half selected by `Range(v, LT)`. -/
theorem markRange_zero_eq (rs : List (IndexStructure α)) (ub : Nat) (b : Bool)
    (bs : TargetBitmap) :
    markRange rs 0 ub b bs = (rs.take ub).foldl (fun a r => a.set r.idx_ b) bs := by
  unfold markRange
  rw [List.drop_zero, Nat.sub_zero]

omit [LinearOrder α] in
/-- The `j ∈ [lowerBound, end)` half selected by `Range(v, GE)`. -/
theorem markRange_to_end_eq (rs : List (IndexStructure α)) (lb : Nat) (b : Bool)
    (bs : TargetBitmap) :
    markRange rs lb rs.length b bs =
      (rs.drop lb).foldl (fun a r => a.set r.idx_ b) bs := by
  unfold markRange
  congr 1
  apply List.take_of_length_le
  rw [List.length_drop]

/-- The original positions of a freshly built index are a permutation of
`0, ..., count-1`. -/
theorem builtFrom_map_idx_perm (values : List α) (h : values ≠ []) :
    ((builtFrom values).data_.map (fun r => r.idx_)).Perm
      (List.range values.length) := by
  have := (builtFrom_perm values h).map (fun r => r.idx_)
  rwa [mkRecords, mkRecordsFrom_map_idx, ← List.range_eq_range'] at this

omit [LinearOrder α] in
/-- An all-false bitmap reads false at every position. -/
theorem getD_replicate_false (n j : Nat) :
    (List.replicate n (false : Bool)).getD j false = false := by
  by_cases h : j < n
  · rw [List.getD_eq_getElem _ _ (by simpa using h)]
    exact List.getElem_replicate _ _
  · exact List.getD_eq_default _ _ (by simpa using h)

omit [LinearOrder α] in
/-- Loading the exact blob set written by the fixed-width serializer restores
the record sequence and marks the index built. -/
theorem Load_serialized [Inhabited α] (rs : List (IndexStructure α)) :
    ScalarIndexSort.Load (BinarySet.mk [("index_data", BlobData.recs rs),
      ("index_length", BlobData.len rs.length)]) =
      some (⟨true, rs⟩ : ScalarIndexSort α) := by
  have h : ScalarIndexSort.Load (BinarySet.mk [("index_data", BlobData.recs rs),
      ("index_length", BlobData.len rs.length)]) =
      some (⟨true, rs.take rs.length ++
        List.replicate (rs.length - rs.length) ⟨default, 0⟩⟩ :
          ScalarIndexSort α) := rfl
  rw [h, List.take_length, Nat.sub_self]
  simp

end Lemmas

section Claims

open ScalarIndexSort

/-- C1: for every `count > 0` and every input value array, after
`Build(count, values)` on a fresh index, `In([v])` returns a bitmap in which
exactly the original positions `i` with `values[i] = v` are set — every
duplicate occurrence of `v` included — and all non-matching positions are
clear, for any probe `v`. -/
theorem claim_C1_in_exact_positions (values : List Int) (v : Int)
    (h : values ≠ []) :
    ∃ bm, (builtFrom values).In [v] = .ok bm ∧
      bm.length = values.length ∧
      ∀ (j : Nat) (hj : j < values.length),
        (bm.getD j false = true ↔ values.get ⟨j, hj⟩ = v) := by
  obtain ⟨bm, hIn, hlen, hbit⟩ := In_builtFrom values h [v]
  refine ⟨bm, hIn, hlen, ?_⟩
  intro j hj
  rw [hbit j hj]
  simp

/-- Witness for C1 on the spec's worked example `[30, 10, 20, 10]`, probe 10:
positions 1 and 3 (both duplicates) are set, positions 0 and 2 are clear. -/
theorem claim_C1_witness :
    ([30, 10, 20, 10] : List Int) ≠ [] ∧
    ∃ bm, (builtFrom ([30, 10, 20, 10] : List Int)).In [10] = .ok bm ∧
      bm.length = ([30, 10, 20, 10] : List Int).length ∧
      ∀ (j : Nat) (hj : j < ([30, 10, 20, 10] : List Int).length),
        (bm.getD j false = true ↔ ([30, 10, 20, 10] : List Int).get ⟨j, hj⟩ = 10) :=
  ⟨by decide, claim_C1_in_exact_positions [30, 10, 20, 10] 10 (by decide)⟩

/-- C3: for every built index and every probe value array, the bitmap
returned by `NotIn` is the exact pointwise complement of the bitmap returned
by `In` on the same probes, over the full position range. -/
theorem claim_C3_notin_complement (idx : ScalarIndexSort Int)
    (h : idx.is_built_ = true) (probes : List Int) :
    ∃ bmIn bmNot, idx.In probes = .ok bmIn ∧ idx.NotIn probes = .ok bmNot ∧
      bmNot = bmIn.map (fun x => !x) := by
  have hIn : idx.In probes = .ok (probes.foldl
      (fun a v => markRange idx.data_ (lowerBound idx.data_ v)
        (upperBound idx.data_ v) true a)
      (List.replicate idx.data_.length false)) := by
    unfold In
    rw [build_of_built h]
    rfl
  have hNot : idx.NotIn probes = .ok (probes.foldl
      (fun a v => markRange idx.data_ (lowerBound idx.data_ v)
        (upperBound idx.data_ v) false a)
      (List.replicate idx.data_.length true)) := by
    unfold NotIn
    rw [build_of_built h]
    rfl
  refine ⟨_, _, hIn, hNot, ?_⟩
  have hrep : List.replicate idx.data_.length true =
      (List.replicate idx.data_.length false).map (fun x => !x) := by
    simp
  rw [hrep, foldl_markRange_map_not]

/-- Witness for C3 at a concrete built index and probe set. -/
theorem claim_C3_witness :
    (builtFrom ([30, 10, 20, 10] : List Int)).is_built_ = true ∧
    ∃ bmIn bmNot,
      (builtFrom ([30, 10, 20, 10] : List Int)).In [10, 20] = .ok bmIn ∧
      (builtFrom ([30, 10, 20, 10] : List Int)).NotIn [10, 20] = .ok bmNot ∧
      bmNot = bmIn.map (fun x => !x) :=
  ⟨by decide,
    claim_C3_notin_complement (builtFrom [30, 10, 20, 10]) (by decide) [10, 20]⟩

/-- C2: for every fixed-width index built from `count > 0` values,
`Load(Serialize(index))` yields an index whose `In`, `NotIn`, single-bound
`Range` and double-bound `Range` results are identical to the original's for
every operator and every probe or boundary value (boundaries equal to
existing values and outside the data's range included: the quantifiers range
over all values). -/
theorem claim_C2_serialize_load_roundtrip (values : List Int) (h : values ≠ []) :
    ∃ (bs : BinarySet Int) (idx2 : ScalarIndexSort Int),
      (builtFrom values).Serialize = .ok bs ∧
      ScalarIndexSort.Load bs = some idx2 ∧
      (∀ probes, idx2.In probes = (builtFrom values).In probes) ∧
      (∀ probes, idx2.NotIn probes = (builtFrom values).NotIn probes) ∧
      (∀ v op, idx2.Range v op = (builtFrom values).Range v op) ∧
      (∀ lo li hi ui, idx2.Range2 lo li hi ui =
        (builtFrom values).Range2 lo li hi ui) := by
  have hb := builtFrom_is_built values h
  have hSer : (builtFrom values).Serialize = .ok (BinarySet.mk
      [("index_data", BlobData.recs (builtFrom values).data_),
       ("index_length", BlobData.len (builtFrom values).data_.length)]) := by
    unfold Serialize
    rw [build_of_built hb]
    rfl
  have hLoad := Load_serialized (builtFrom values).data_
  have hEq : (⟨true, (builtFrom values).data_⟩ : ScalarIndexSort Int) =
      builtFrom values := by
    rw [← hb]
  refine ⟨_, _, hSer, hLoad, ?_, ?_, ?_, ?_⟩
  · intro probes; rw [hEq]
  · intro probes; rw [hEq]
  · intro v op; rw [hEq]
  · intro lo li hi ui; rw [hEq]

/-- Witness for C2 at the concrete input `[30, 10, 20, 10]`. -/
theorem claim_C2_witness :
    ([30, 10, 20, 10] : List Int) ≠ [] ∧
    ∃ (bs : BinarySet Int) (idx2 : ScalarIndexSort Int),
      (builtFrom ([30, 10, 20, 10] : List Int)).Serialize = .ok bs ∧
      ScalarIndexSort.Load bs = some idx2 ∧
      (∀ probes, idx2.In probes = (builtFrom ([30, 10, 20, 10] : List Int)).In probes) ∧
      (∀ probes, idx2.NotIn probes = (builtFrom ([30, 10, 20, 10] : List Int)).NotIn probes) ∧
      (∀ v op, idx2.Range v op = (builtFrom ([30, 10, 20, 10] : List Int)).Range v op) ∧
      (∀ lo li hi ui, idx2.Range2 lo li hi ui =
        (builtFrom ([30, 10, 20, 10] : List Int)).Range2 lo li hi ui) :=
  ⟨by decide, claim_C2_serialize_load_roundtrip [30, 10, 20, 10] (by decide)⟩

/-- C4: for every freshly built index and every boundary value `v`, the
bitmaps of `Range(v, LT)` and `Range(v, GE)` are pointwise complementary over
the full position range: the two position sets are disjoint and their union
is the full set of record positions. -/
theorem claim_C4_lt_ge_partition (values : List Int) (h : values ≠ []) (v : Int) :
    ∃ bmLT bmGE,
      (builtFrom values).Range v .LT = .ok bmLT ∧
      (builtFrom values).Range v .GE = .ok bmGE ∧
      bmLT.length = values.length ∧ bmGE.length = values.length ∧
      ∀ j, j < values.length → bmLT.getD j false = !(bmGE.getD j false) := by
  have hb := builtFrom_is_built values h
  have hn := builtFrom_length values h
  have hRLT : (builtFrom values).Range v .LT = .ok
      (markRange (builtFrom values).data_ 0
        (lowerBound (builtFrom values).data_ v) true
        (List.replicate (builtFrom values).data_.length false)) := by
    unfold Range
    rw [build_of_built hb]
    rfl
  have hRGE : (builtFrom values).Range v .GE = .ok
      (markRange (builtFrom values).data_
        (lowerBound (builtFrom values).data_ v)
        (builtFrom values).data_.length true
        (List.replicate (builtFrom values).data_.length false)) := by
    unfold Range
    rw [build_of_built hb]
    rfl
  refine ⟨_, _, hRLT, hRGE, ?_, ?_, ?_⟩
  · rw [markRange_length, List.length_replicate, hn]
  · rw [markRange_length, List.length_replicate, hn]
  · intro j hj
    have hjn : j < (List.replicate (builtFrom values).data_.length
        (false : Bool)).length := by
      rw [List.length_replicate, hn]; exact hj
    rw [markRange_zero_eq, markRange_to_end_eq,
      foldl_set_getD _ true _ j hjn, foldl_set_getD _ true _ j hjn,
      getD_replicate_false]
    have hperm := builtFrom_map_idx_perm values h
    have hsplit : (builtFrom values).data_.take
          (lowerBound (builtFrom values).data_ v) ++
        (builtFrom values).data_.drop
          (lowerBound (builtFrom values).data_ v) =
        (builtFrom values).data_ := List.take_append_drop _ _
    have hmem : j ∈ (builtFrom values).data_.map (fun r => r.idx_) := by
      rw [hperm.mem_iff]
      exact List.mem_range.mpr hj
    have hnodup : ((builtFrom values).data_.map (fun r => r.idx_)).Nodup :=
      hperm.nodup_iff.mpr (List.nodup_range _)
    rw [← hsplit, List.map_append] at hmem hnodup
    obtain ⟨-, -, hdisj⟩ := List.nodup_append.mp hnodup
    have hanyT : ∀ (part : List (IndexStructure Int)),
        (part.any (fun r => r.idx_ == j) = true) ↔ j ∈ part.map (fun r => r.idx_) := by
      intro part
      simp [List.any_eq_true, List.mem_map, beq_iff_eq]
    rcases List.mem_append.mp hmem with hT | hD
    · have h1 : ((builtFrom values).data_.take
          (lowerBound (builtFrom values).data_ v)).any
          (fun r => r.idx_ == j) = true := (hanyT _).mpr hT
      have h2 : ((builtFrom values).data_.drop
          (lowerBound (builtFrom values).data_ v)).any
          (fun r => r.idx_ == j) = false := by
        rw [Bool.eq_false_iff]
        intro hc
        exact hdisj hT ((hanyT _).mp hc)
      rw [h1, h2]
      simp
    · have h1 : ((builtFrom values).data_.take
          (lowerBound (builtFrom values).data_ v)).any
          (fun r => r.idx_ == j) = false := by
        rw [Bool.eq_false_iff]
        intro hc
        exact hdisj ((hanyT _).mp hc) hD
      have h2 : ((builtFrom values).data_.drop
          (lowerBound (builtFrom values).data_ v)).any
          (fun r => r.idx_ == j) = true := (hanyT _).mpr hD
      rw [h1, h2]
      simp

/-- Witness for C4 at `[30, 10, 20, 10]` with boundary 20 (an existing
value). -/
theorem claim_C4_witness :
    ([30, 10, 20, 10] : List Int) ≠ [] ∧
    ∃ bmLT bmGE,
      (builtFrom ([30, 10, 20, 10] : List Int)).Range 20 .LT = .ok bmLT ∧
      (builtFrom ([30, 10, 20, 10] : List Int)).Range 20 .GE = .ok bmGE ∧
      bmLT.length = ([30, 10, 20, 10] : List Int).length ∧
      bmGE.length = ([30, 10, 20, 10] : List Int).length ∧
      ∀ j, j < ([30, 10, 20, 10] : List Int).length →
        bmLT.getD j false = !(bmGE.getD j false) :=
  ⟨by decide, claim_C4_lt_ge_partition [30, 10, 20, 10] (by decide) 20⟩

/-- C5: for every index and every inverted pair of double-bound arguments
(`lower > upper`), `Range2` returns exactly what the call with the two
`(value, inclusivity)` pairs swapped returns — the inversion is silently
normalized, never an error and never forced empty; and on a built index the
call does return a bitmap. -/
theorem claim_C5_range2_swap (idx : ScalarIndexSort Int) (lo hi : Int)
    (li ui : Bool) (h : hi < lo) :
    idx.Range2 lo li hi ui = idx.Range2 hi ui lo li ∧
      (idx.is_built_ = true → ∃ bm, idx.Range2 lo li hi ui = .ok bm) := by
  constructor
  · unfold Range2
    cases idx.build with
    | error e => rfl
    | ok j =>
      simp only [if_pos h, if_neg (not_lt.mpr (le_of_lt h))]
  · intro hb
    unfold Range2
    rw [build_of_built hb]
    exact ⟨_, rfl⟩

/-- Witness for C5: the spec's instance `range(lower=5, inclusive, upper=2,
inclusive)` equals `range(lower=2, inclusive, upper=5, inclusive)` on a
concrete built index. -/
theorem claim_C5_witness :
    (2 : Int) < 5 ∧
    ((builtFrom ([30, 10, 20, 10] : List Int)).Range2 5 true 2 true =
        (builtFrom ([30, 10, 20, 10] : List Int)).Range2 2 true 5 true ∧
      ((builtFrom ([30, 10, 20, 10] : List Int)).is_built_ = true →
        ∃ bm, (builtFrom ([30, 10, 20, 10] : List Int)).Range2 5 true 2 true =
          .ok bm)) :=
  ⟨by decide,
    claim_C5_range2_swap (builtFrom [30, 10, 20, 10]) 5 2 true true (by decide)⟩

/-- C6: on a fresh (empty, unbuilt) index, `Build` with `count = 0` fails
with the invalid-input error (`std::invalid_argument`, the source's
`"ScalarIndexSort cannot build null values!"`), and the index state at the
throw point is not marked built. -/
theorem claim_C6_build_empty_fails :
    (ScalarIndexSort.empty.Build ([] : List Int)).2 =
        some IndexError.invalidInput ∧
      ((ScalarIndexSort.empty.Build ([] : List Int)).1).is_built_ = false := by
  decide

/-- C7 (defect demonstration): `Load` performs no length/stride validation.
Loading a blob set whose `index_data` holds 2 records (byte length
`2 * stride`) while `index_length` declares 3 succeeds silently — the index
comes back marked built, padded with a default record — instead of failing
with a corrupt-data error as the claim requires. -/
theorem claim_C7_load_unvalidated :
    ScalarIndexSort.Load (BinarySet.mk
        [("index_data", BlobData.recs [⟨(5 : Int), 0⟩, ⟨7, 1⟩]),
         ("index_length", BlobData.len 3)]) =
      some (⟨true, [⟨(5 : Int), 0⟩, ⟨7, 1⟩, ⟨0, 0⟩]⟩ : ScalarIndexSort Int) ∧
    (BlobData.recs [⟨(5 : Int), 0⟩, ⟨7, 1⟩]).byteSize 16 ≠ 3 * 16 := by
  constructor
  · rfl
  · decide

/-- C8 (defect demonstration): with the record sequence
`[(5,0), (3,1), (5,2)]` (marked built but unsorted, as a corrupted load can
produce) and probe 3, the halving binary searches compute the equal-range
`[0, 2)`, whose first record holds value 5 ≠ 3; `In` nevertheless returns a
bitmap with position 0 set — the mismatch is only logged, never surfaced as
an error. -/
theorem claim_C8_mismatch_only_logged :
    lowerBound ([⟨(5 : Int), 0⟩, ⟨3, 1⟩, ⟨5, 2⟩] :
      List (IndexStructure Int)) 3 = 0 ∧
    upperBound ([⟨(5 : Int), 0⟩, ⟨3, 1⟩, ⟨5, 2⟩] :
      List (IndexStructure Int)) 3 = 2 ∧
    (([⟨(5 : Int), 0⟩, ⟨3, 1⟩, ⟨5, 2⟩] :
      List (IndexStructure Int)).getD 0 ⟨0, 0⟩).a_ ≠ 3 ∧
    (ScalarIndexSort.mk true [⟨(5 : Int), 0⟩, ⟨3, 1⟩, ⟨5, 2⟩]).In [3] =
      .ok [true, true, false] := by
  refine ⟨by decide, by decide, by decide, by rfl⟩

/-- C10: on every built index with a non-empty record sequence, `In` with an
empty probe set returns the all-clear bitmap of size equal to the record
count, and `NotIn` with an empty probe set returns the all-set bitmap of the
same size. -/
theorem claim_C10_empty_probe_set (idx : ScalarIndexSort Int)
    (h : idx.is_built_ = true) (_hne : idx.data_ ≠ []) :
    idx.In [] = .ok (List.replicate idx.data_.length false) ∧
      idx.NotIn [] = .ok (List.replicate idx.data_.length true) := by
  constructor
  · unfold In
    rw [build_of_built h]
    rfl
  · unfold NotIn
    rw [build_of_built h]
    rfl

/-- Witness for C10 at a concrete built index. -/
theorem claim_C10_witness :
    (builtFrom ([30, 10, 20, 10] : List Int)).is_built_ = true ∧
    (builtFrom ([30, 10, 20, 10] : List Int)).data_ ≠ [] ∧
    ((builtFrom ([30, 10, 20, 10] : List Int)).In [] =
        .ok (List.replicate (builtFrom ([30, 10, 20, 10] : List Int)).data_.length false) ∧
      (builtFrom ([30, 10, 20, 10] : List Int)).NotIn [] =
        .ok (List.replicate (builtFrom ([30, 10, 20, 10] : List Int)).data_.length true)) :=
  ⟨by decide, by decide,
    claim_C10_empty_probe_set (builtFrom [30, 10, 20, 10]) (by decide) (by decide)⟩

/-- The entries appended by the string serializer: one blob per record, in
record order, named by the record's position, holding the record's string. -/
theorem stringSerialize_entries_aux (data : List (IndexStructure String)) :
    ∀ acc : List (String × BlobData String),
      (data.foldl (fun bs r => bs.Append (toString r.idx_) (BlobData.str r.a_))
        (BinarySet.mk acc)).entries =
        acc ++ data.map (fun r => (toString r.idx_, BlobData.str r.a_)) := by
  induction data with
  | nil => intro acc; simp
  | cons r data ih =>
    intro acc
    simp only [List.foldl_cons, List.map_cons]
    rw [show (BinarySet.mk acc).Append (toString r.idx_) (BlobData.str r.a_) =
      BinarySet.mk (acc ++ [(toString r.idx_, BlobData.str r.a_)]) from rfl]
    rw [ih]
    simp

theorem stringSerialize_entries (idx : ScalarIndexSort String) :
    (stringSerialize idx).entries =
      idx.data_.map (fun r => (toString r.idx_, BlobData.str r.a_)) := by
  unfold stringSerialize
  have := stringSerialize_entries_aux idx.data_ []
  simpa using this

/-- C9: the string specialization's `Load` collects only the byte contents of
the blobs, in the map's enumeration order, and re-runs the generic `Build`;
so after `Serialize` then `Load` of a freshly built string index, the multiset
of record values is preserved, but every record's position is its value's
index in the enumeration order (`vecs`) — the loaded positions are exactly
`0, ..., n-1` as reassigned by `Build`, not restored from the blob names. -/
theorem claim_C9_string_load_reenumerates (values : List String)
    (h : values ≠ []) :
    ∃ (idx2 : ScalarIndexSort String) (vecs : List String),
      vecs = (stringSerialize (builtFrom values)).binaryMap.map
        (fun e => blobAsString e.2) ∧
      stringLoad ScalarIndexSort.empty (stringSerialize (builtFrom values)) =
        (idx2, none) ∧
      (idx2.data_.map (fun r => r.a_)).Perm
        ((builtFrom values).data_.map (fun r => r.a_)) ∧
      (idx2.data_.map (fun r => r.idx_)).Perm (List.range vecs.length) ∧
      ∀ r ∈ idx2.data_, ∃ hh : r.idx_ < vecs.length,
        vecs.get ⟨r.idx_, hh⟩ = r.a_ := by
  set bs := stringSerialize (builtFrom values) with hbs
  set vecs := bs.binaryMap.map (fun e => blobAsString e.2) with hvecs
  have hperm_map : bs.binaryMap.Perm bs.entries :=
    List.perm_insertionSort _ _
  have hentries : bs.entries =
      (builtFrom values).data_.map
        (fun r => (toString r.idx_, BlobData.str r.a_)) :=
    stringSerialize_entries _
  have hcontent : bs.entries.map (fun e => blobAsString e.2) =
      (builtFrom values).data_.map (fun r => r.a_) := by
    rw [hentries, List.map_map]
    rfl
  have hvperm : vecs.Perm ((builtFrom values).data_.map (fun r => r.a_)) := by
    rw [hvecs, ← hcontent]
    exact hperm_map.map _
  have hvlen : vecs.length = values.length := by
    rw [hvperm.length_eq, List.length_map, builtFrom_length values h]
  have hvne : vecs ≠ [] := by
    intro hc
    apply h
    rw [← List.length_eq_zero, ← hvlen, hc]
    rfl
  have hbuild := builtFrom_eq vecs hvne
  have hload : stringLoad ScalarIndexSort.empty bs =
      (⟨true, sortRecords (mkRecords vecs)⟩, none) := by
    unfold stringLoad
    rw [← hvecs]
    exact hbuild
  have hperm_rec : (sortRecords (mkRecords vecs)).Perm (mkRecords vecs) :=
    List.perm_insertionSort _ _
  refine ⟨⟨true, sortRecords (mkRecords vecs)⟩, vecs, hvecs, hload, ?_, ?_, ?_⟩
  · have h1 : ((sortRecords (mkRecords vecs)).map (fun r => r.a_)).Perm
        ((mkRecords vecs).map (fun r => r.a_)) := hperm_rec.map _
    rw [mkRecords, mkRecordsFrom_map_val] at h1
    exact h1.trans hvperm
  · have h1 : ((sortRecords (mkRecords vecs)).map (fun r => r.idx_)).Perm
        ((mkRecords vecs).map (fun r => r.idx_)) := hperm_rec.map _
    rw [mkRecords, mkRecordsFrom_map_idx, ← List.range_eq_range'] at h1
    exact h1
  · intro r hr
    have hmem : r ∈ mkRecords vecs := hperm_rec.mem_iff.mp hr
    rw [mkRecords] at hmem
    obtain ⟨j, hj, rfl⟩ := (mem_mkRecordsFrom vecs r 0).mp hmem
    simp only [Nat.zero_add]
    exact ⟨hj, trivial⟩

/-- Witness for C9 at the singleton input `["a"]`. -/
theorem claim_C9_witness :
    (["a"] : List String) ≠ [] ∧
    ∃ (idx2 : ScalarIndexSort String) (vecs : List String),
      vecs = (stringSerialize (builtFrom (["a"] : List String))).binaryMap.map
        (fun e => blobAsString e.2) ∧
      stringLoad ScalarIndexSort.empty
        (stringSerialize (builtFrom (["a"] : List String))) = (idx2, none) ∧
      (idx2.data_.map (fun r => r.a_)).Perm
        ((builtFrom (["a"] : List String)).data_.map (fun r => r.a_)) ∧
      (idx2.data_.map (fun r => r.idx_)).Perm (List.range vecs.length) ∧
      ∀ r ∈ idx2.data_, ∃ hh : r.idx_ < vecs.length,
        vecs.get ⟨r.idx_, hh⟩ = r.a_ :=
  ⟨by decide, claim_C9_string_load_reenumerates ["a"] (by decide)⟩

end Claims

end MilvusScalar
